import Mathlib

/-!
Verification of the minigrep library (`src/lib.rs`).

The program is embedded shallowly: Rust strings become `List Char`,
`str::contains` becomes substring containment, `str::lines` is modelled
after its documented splitting behaviour (split after every line feed,
then remove the trailing line feed and a carriage return immediately
preceding it), environment lookup becomes an `Option` argument and file
input becomes an oracle function returning `Except`.
-/

namespace Minigrep

/-- Rust string contents are modelled as lists of characters. -/
abbrev Str := List Char

/-- Model of Rust `haystack.contains(needle)` for strings: the needle
occurs contiguously somewhere in the haystack. -/
def strContains (haystack needle : Str) : Bool :=
  decide (needle <:+: haystack)

/-- Prepend a character to the first segment of a segmentation, starting
a fresh segment when there is none. -/
def consFirst (c : Char) : List Str → List Str
  | [] => [[c]]
  | l :: ls => (c :: l) :: ls

/-- Model of `str::split_inclusive('\n')`: cut the text after every line
feed, keeping the line feed at the end of its segment; a final segment
without a line feed is kept, and no empty trailing segment is produced. -/
def splitInclusiveNl : Str → List Str
  | [] => []
  | c :: rest =>
    if c = '\n' then
      [c] :: splitInclusiveNl rest
    else
      consFirst c (splitInclusiveNl rest)

/-- Model of `str::strip_suffix(c)`: remove a single trailing occurrence
of `c`, or signal that there was none. -/
def stripSuffixChar (c : Char) (l : Str) : Option Str :=
  if l.getLast? = some c then some l.dropLast else none

/-- Per-segment cleanup of `str::lines`: remove the trailing line feed
when present, and after that a carriage return immediately before it. -/
def linesMap (l : Str) : Str :=
  match stripSuffixChar '\n' l with
  | none => l
  | some s =>
    match stripSuffixChar '\r' s with
    | none => s
    | some s2 => s2

/-- Model of `str::lines`: split inclusively on line feeds, then strip
the terminator (`"\n"` or `"\r\n"`) of each segment. -/
def rustLines (s : Str) : List Str :=
  (splitInclusiveNl s).map linesMap

/-- Model of the per-character lowercase table consulted by
`str::to_lowercase` (`conversions::to_lower`), restricted to the Basic
Latin and Greek letter ranges exercised in this development; characters
outside these ranges are kept unchanged. -/
def charToLower (c : Char) : Char :=
  if 'A' ≤ c ∧ c ≤ 'Z' then Char.ofNat (c.toNat + 32)
  else if 'Α' ≤ c ∧ c ≤ 'Ρ' then Char.ofNat (c.toNat + 32)
  else if 'Σ' ≤ c ∧ c ≤ 'Ϋ' then Char.ofNat (c.toNat + 32)
  else c

/-- Model of the Unicode Case_Ignorable property, restricted to the
apostrophe and the combining diacritical marks. -/
def isCaseIgnorable (c : Char) : Bool :=
  decide (c = '\x27' ∨ (Char.ofNat 0x300 ≤ c ∧ c ≤ Char.ofNat 0x36F))

/-- Model of the Unicode Cased property, restricted to the Basic Latin
and Greek letters. -/
def isCased (c : Char) : Bool :=
  decide (('A' ≤ c ∧ c ≤ 'Z') ∨ ('a' ≤ c ∧ c ≤ 'z') ∨ ('Α' ≤ c ∧ c ≤ 'ώ'))

/-- The scanning step of the final-sigma test in `map_uppercase_sigma`:
skip case-ignorable characters and report whether the first remaining
character is cased. -/
def caseIgnorableThenCased (cs : Str) : Bool :=
  match cs.dropWhile isCaseIgnorable with
  | [] => false
  | c :: _ => isCased c

/-- Model of `map_uppercase_sigma` from `str::to_lowercase`: a capital
sigma lowers to the final form exactly when the nearest
non-case-ignorable character before it is cased and the nearest one after
it is not. `before` holds the characters preceding the sigma in order,
`after` those following it. -/
def mapUppercaseSigma (before after : Str) : Char :=
  let isWordFinal :=
    caseIgnorableThenCased before.reverse && ! caseIgnorableThenCased after
  if isWordFinal then 'ς' else 'σ'

/-- The character loop of `str::to_lowercase`: every character goes
through the lowercase table except a capital sigma, which is lowered with
the context-sensitive final-sigma rule. `before` accumulates the original
characters already consumed. -/
def toLowercaseAux : Str → Str → Str
  | _, [] => []
  | before, c :: rest =>
    if c = 'Σ' then
      mapUppercaseSigma before rest :: toLowercaseAux (before ++ [c]) rest
    else
      charToLower c :: toLowercaseAux (before ++ [c]) rest

/-- Model of `str::to_lowercase`: per-character lowering with the
final-sigma special case. -/
def toLowercase (s : Str) : Str :=
  toLowercaseAux [] s

/-- Embedding of `search` from `src/lib.rs`: keep, in order, the lines of
`contents` that contain `query`. -/
def search (query contents : Str) : List Str :=
  (rustLines contents).filter (fun line => strContains line query)

/-- Embedding of `search_case_insensitive` from `src/lib.rs`: lowercase
the query once, then keep the lines whose lowercase form contains it. -/
def search_case_insensitive (query contents : Str) : List Str :=
  let query' := toLowercase query
  (rustLines contents).filter (fun line => strContains (toLowercase line) query')

/-- Embedding of the `Config` struct from `src/lib.rs`. -/
structure Config where
  query : Str
  filename : Str
  case_sensitive : Bool

/-- The error message returned when the query argument is missing. -/
def missingQueryMsg : Str := String.toList "Didn\x27t get a query string"

/-- The error message returned when the file name argument is missing. -/
def missingFileMsg : Str := String.toList "Didn\x27t get a file name"

/-- Embedding of `Config::new` from `src/lib.rs`. The argument iterator
becomes a list whose head (the program name) is discarded; the
`CASE_INSENSITIVE` environment lookup becomes an `Option` holding the
value of the variable when it is set, so `env::var(..).is_err()` becomes
`Option.isNone`. -/
def Config.new (args : List Str) (caseInsensitiveVar : Option Str) :
    Except Str Config :=
  match args.tail with
  | [] => .error missingQueryMsg
  | query :: rest =>
    match rest with
    | [] => .error missingFileMsg
    | filename :: _ =>
      .ok { query := query, filename := filename,
            case_sensitive := caseInsensitiveVar.isNone }

/-- Embedding of `run` from `src/lib.rs`. File opening and
`read_to_string` become oracle functions returning `Except` (`η` is the
file-handle type, `ε` the error type); both `?` propagations are explicit
matches. The result pairs the lines printed to standard output with the
returned `Result`. -/
def run {η ε : Type} (fileOpen : Str → Except ε η)
    (readToString : η → Except ε Str) (config : Config) :
    List Str × Except ε Unit :=
  match fileOpen config.filename with
  | .error e => ([], .error e)
  | .ok f =>
    match readToString f with
    | .error e => ([], .error e)
    | .ok contents =>
      let results :=
        if config.case_sensitive then
          search config.query contents
        else
          search_case_insensitive config.query contents
      (results, .ok ())

/-! Helper lemmas about the embedded string operations. -/

theorem strContains_iff {hay nd : Str} : strContains hay nd = true ↔ nd <:+: hay := by
  simp [strContains]

theorem getLast?_ne_of_not_mem {c : Char} {u : Str} (h : c ∉ u) :
    u.getLast? ≠ some c := by
  intro he
  rcases List.mem_getLast?_eq_getLast (Option.mem_def.mpr he) with ⟨hne, hc⟩
  exact h (hc ▸ List.getLast_mem hne)

theorem splitInclusiveNl_ne_nil (s : Str) (hs : s ≠ []) : splitInclusiveNl s ≠ [] := by
  cases s with
  | nil => exact absurd rfl hs
  | cons c rest =>
    simp only [splitInclusiveNl]
    by_cases hc : c = '\n'
    · simp [hc]
    · simp only [if_neg hc]
      cases h : splitInclusiveNl rest <;> simp [consFirst]

theorem splitInclusiveNl_append_nl (x y : Str) :
    splitInclusiveNl (x ++ '\n' :: y) =
      splitInclusiveNl (x ++ ['\n']) ++ splitInclusiveNl y := by
  induction x with
  | nil => simp [splitInclusiveNl]
  | cons c x ih =>
    by_cases hc : c = '\n'
    · subst hc
      simp only [List.cons_append, splitInclusiveNl, if_pos rfl, List.append_eq]
      rw [ih]
      simp
    · simp only [List.cons_append, splitInclusiveNl, if_neg hc, List.append_eq]
      rw [ih]
      have hne : splitInclusiveNl (x ++ ['\n']) ≠ [] :=
        splitInclusiveNl_ne_nil _ (by simp)
      cases h : splitInclusiveNl (x ++ ['\n']) with
      | nil => exact absurd h hne
      | cons l ls => simp [consFirst]

theorem splitInclusiveNl_of_no_nl (u : Str) (hne : u ≠ []) (h : '\n' ∉ u) :
    splitInclusiveNl u = [u] := by
  induction u with
  | nil => exact absurd rfl hne
  | cons c rest ih =>
    have hc : c ≠ '\n' := fun e => h (e ▸ List.mem_cons_self c rest)
    simp only [splitInclusiveNl, if_neg hc]
    by_cases hr : rest = []
    · subst hr
      simp [splitInclusiveNl, consFirst]
    · rw [ih hr (fun hm => h (List.mem_cons_of_mem c hm))]
      simp [consFirst]

theorem splitInclusiveNl_concat_nl (u : Str) (h : '\n' ∉ u) :
    splitInclusiveNl (u ++ ['\n']) = [u ++ ['\n']] := by
  induction u with
  | nil => simp [splitInclusiveNl]
  | cons c rest ih =>
    have hc : c ≠ '\n' := fun e => h (e ▸ List.mem_cons_self c rest)
    simp only [List.cons_append, splitInclusiveNl, if_neg hc, List.append_eq]
    rw [ih (fun hm => h (List.mem_cons_of_mem c hm))]
    simp [consFirst]

theorem splitInclusiveNl_length_concat_nl (t : Str) :
    (splitInclusiveNl (t ++ ['\n'])).length = List.count '\n' t + 1 := by
  induction t with
  | nil => simp [splitInclusiveNl]
  | cons c t ih =>
    by_cases hc : c = '\n'
    · subst hc
      simp only [List.cons_append, splitInclusiveNl, if_pos rfl]
      simp [ih, List.count_cons]
    · simp only [List.cons_append, splitInclusiveNl, if_neg hc]
      have hne : splitInclusiveNl (t ++ ['\n']) ≠ [] :=
        splitInclusiveNl_ne_nil _ (by simp)
      cases h : splitInclusiveNl (t ++ ['\n']) with
      | nil => exact absurd h hne
      | cons l ls =>
        rw [h] at ih
        simp only [consFirst, List.length_cons] at ih ⊢
        rw [List.count_cons_of_ne (fun e => hc e.symm), ih]

theorem splitInclusiveNl_segments (s : Str) :
    ∀ seg ∈ splitInclusiveNl s, seg ≠ [] ∧ '\n' ∉ seg.dropLast := by
  induction s with
  | nil => simp [splitInclusiveNl]
  | cons c rest ih =>
    by_cases hc : c = '\n'
    · subst hc
      simp only [splitInclusiveNl, if_pos rfl]
      intro seg hseg
      rcases List.mem_cons.mp hseg with h | h
      · subst h
        exact ⟨by simp, by simp⟩
      · exact ih seg h
    · simp only [splitInclusiveNl, if_neg hc]
      cases h : splitInclusiveNl rest with
      | nil =>
        intro seg hseg
        simp only [consFirst, List.mem_singleton] at hseg
        subst hseg
        exact ⟨by simp, by simp⟩
      | cons l ls =>
        intro seg hseg
        simp only [consFirst] at hseg
        rcases List.mem_cons.mp hseg with h2 | h2
        · subst h2
          have hl := ih l (by rw [h]; exact List.mem_cons_self _ _)
          refine ⟨by simp, ?_⟩
          cases l with
          | nil => simp
          | cons d l2 =>
            rw [List.dropLast_cons₂]
            intro hmem
            rcases List.mem_cons.mp hmem with h3 | h3
            · exact hc h3.symm
            · exact hl.2 h3
        · exact ih seg (by rw [h]; exact List.mem_cons_of_mem _ h2)

theorem linesMap_of_no_trailing_nl {u : Str} (h : u.getLast? ≠ some '\n') :
    linesMap u = u := by
  simp [linesMap, stripSuffixChar, h]

theorem linesMap_concat_rn (t : Str) : linesMap (t ++ ['\r', '\n']) = t := by
  have h1 : t ++ ['\r', '\n'] = (t ++ ['\r']) ++ ['\n'] := by simp
  rw [h1]
  simp [linesMap, stripSuffixChar, List.getLast?_concat, List.dropLast_concat]

theorem nl_not_mem_linesMap (seg : Str) (hne : seg ≠ [])
    (hd : '\n' ∉ seg.dropLast) : '\n' ∉ linesMap seg := by
  by_cases h1 : seg.getLast? = some '\n'
  · by_cases h2 : seg.dropLast.getLast? = some '\r'
    · have hres : linesMap seg = seg.dropLast.dropLast := by
        simp [linesMap, stripSuffixChar, h1, h2]
      rw [hres]
      intro hm
      exact hd ((List.dropLast_sublist _).subset hm)
    · have hres : linesMap seg = seg.dropLast := by
        simp [linesMap, stripSuffixChar, h1, h2]
      rw [hres]
      exact hd
  · rw [linesMap_of_no_trailing_nl h1]
    intro hm
    rw [← List.dropLast_append_getLast hne] at hm
    rcases List.mem_append.mp hm with h | h
    · exact hd h
    · rw [List.mem_singleton] at h
      exact h1 (h ▸ List.getLast?_eq_getLast seg hne)

theorem nl_not_mem_rustLines {s l : Str} (hl : l ∈ rustLines s) : '\n' ∉ l := by
  rcases List.mem_map.mp hl with ⟨seg, hseg, rfl⟩
  obtain ⟨hne, hd⟩ := splitInclusiveNl_segments s seg hseg
  exact nl_not_mem_linesMap seg hne hd

theorem filter_sublist_filter {α : Type} {p q : α → Bool} (l : List α)
    (h : ∀ a ∈ l, p a = true → q a = true) :
    (l.filter p).Sublist (l.filter q) := by
  induction l with
  | nil => simp
  | cons a l ih =>
    have ih2 := ih (fun b hb => h b (List.mem_cons_of_mem a hb))
    by_cases hp : p a = true
    · have hqa : q a = true := h a (List.mem_cons_self a l) hp
      rw [List.filter_cons_of_pos hp, List.filter_cons_of_pos hqa]
      exact List.Sublist.cons₂ a ih2
    · rw [List.filter_cons_of_neg hp]
      by_cases hqa : q a = true
      · rw [List.filter_cons_of_pos hqa]
        exact List.Sublist.cons a ih2
      · rw [List.filter_cons_of_neg hqa]
        exact ih2

theorem mem_of_mem_splitInclusiveNl {s : Str} :
    ∀ seg ∈ splitInclusiveNl s, ∀ c ∈ seg, c ∈ s := by
  induction s with
  | nil => simp [splitInclusiveNl]
  | cons a rest ih =>
    by_cases ha : a = '\n'
    · subst ha
      simp only [splitInclusiveNl, if_pos rfl]
      intro seg hseg c hc
      rcases List.mem_cons.mp hseg with h | h
      · subst h
        rw [List.mem_singleton] at hc
        subst hc
        exact List.mem_cons_self _ _
      · exact List.mem_cons_of_mem _ (ih seg h c hc)
    · simp only [splitInclusiveNl, if_neg ha]
      cases hs : splitInclusiveNl rest with
      | nil =>
        intro seg hseg c hc
        simp only [consFirst, List.mem_singleton] at hseg
        subst hseg
        rw [List.mem_singleton] at hc
        subst hc
        exact List.mem_cons_self _ _
      | cons l ls =>
        intro seg hseg c hc
        simp only [consFirst] at hseg
        rcases List.mem_cons.mp hseg with h | h
        · subst h
          rcases List.mem_cons.mp hc with h2 | h2
          · subst h2
            exact List.mem_cons_self _ _
          · refine List.mem_cons_of_mem _ ?_
            exact ih l (by rw [hs]; exact List.mem_cons_self _ _) c h2
        · refine List.mem_cons_of_mem _ ?_
          exact ih seg (by rw [hs]; exact List.mem_cons_of_mem _ h) c hc

theorem linesMap_sublist (seg : Str) : (linesMap seg).Sublist seg := by
  by_cases h1 : seg.getLast? = some '\n'
  · by_cases h2 : seg.dropLast.getLast? = some '\r'
    · have hres : linesMap seg = seg.dropLast.dropLast := by
        simp [linesMap, stripSuffixChar, h1, h2]
      rw [hres]
      exact (List.dropLast_sublist _).trans (List.dropLast_sublist _)
    · have hres : linesMap seg = seg.dropLast := by
        simp [linesMap, stripSuffixChar, h1, h2]
      rw [hres]
      exact List.dropLast_sublist _
  · rw [linesMap_of_no_trailing_nl h1]

theorem mem_of_mem_rustLines {s l : Str} (hl : l ∈ rustLines s) :
    ∀ c ∈ l, c ∈ s := by
  rcases List.mem_map.mp hl with ⟨seg, hseg, rfl⟩
  intro c hc
  exact mem_of_mem_splitInclusiveNl seg hseg c ((linesMap_sublist seg).subset hc)

theorem toLowercaseAux_no_sigma (z : Str) :
    'Σ' ∉ z → ∀ before, toLowercaseAux before z = List.map charToLower z := by
  induction z with
  | nil =>
    intro _ _
    rfl
  | cons c rest ih =>
    intro hz b
    have hc : c ≠ 'Σ' := fun e => hz (e ▸ List.mem_cons_self c rest)
    simp only [toLowercaseAux, if_neg hc, List.map_cons]
    rw [ih (fun hm => hz (List.mem_cons_of_mem c hm)) (b ++ [c])]

theorem toLowercase_no_sigma {z : Str} (hz : 'Σ' ∉ z) :
    toLowercase z = List.map charToLower z :=
  toLowercaseAux_no_sigma z hz []

/-! Claim theorems. -/

/-- C1: for every query `q` and text `t`, `search q t` returns exactly the
lines of `t` that contain `q` as a contiguous substring: the result is a
sublist of the line decomposition of `t` (so every returned element is a
line of `t` and the original order is kept), every returned line contains
`q`, and every line containing `q` is returned once per occurrence (the
multiplicities agree). -/
theorem search_returns_exactly_matching_lines (q t : Str) :
    (search q t).Sublist (rustLines t) ∧
    (∀ l, l ∈ search q t → q <:+: l) ∧
    (∀ l, q <:+: l →
      List.count l (search q t) = List.count l (rustLines t)) := by
  refine ⟨List.filter_sublist _, ?_, ?_⟩
  · intro l hl
    exact strContains_iff.mp (List.mem_filter.mp hl).2
  · intro l hl
    exact List.count_filter (strContains_iff.mpr hl)

/-- Witness for C1 at the query "a" and the single-line text "ab". -/
theorem search_returns_exactly_matching_lines_witness :
    List.count ['a', 'b'] (search ['a'] ['a', 'b']) =
      List.count ['a', 'b'] (rustLines ['a', 'b']) :=
  (search_returns_exactly_matching_lines ['a'] ['a', 'b']).2.2
    ['a', 'b'] (by decide)

/-- C2: for every query `q` and text `t`, `search_case_insensitive q t`
returns, in original order, exactly the lines of `t` whose lowercase form
contains the lowercase form of `q`; in particular the query "LE" matches
lines containing any of the case variants "le", "Le", "lE" and "LE". -/
theorem search_case_insensitive_returns_lowercase_matches (q t : Str) :
    (search_case_insensitive q t).Sublist (rustLines t) ∧
    (∀ l, l ∈ search_case_insensitive q t →
      toLowercase q <:+: toLowercase l) ∧
    (∀ l, toLowercase q <:+: toLowercase l →
      List.count l (search_case_insensitive q t) =
        List.count l (rustLines t)) ∧
    search_case_insensitive (String.toList "LE")
        (String.toList "xle\nxLe\nxlE\nxLE") =
      [String.toList "xle", String.toList "xLe", String.toList "xlE",
       String.toList "xLE"] := by
  refine ⟨List.filter_sublist _, ?_, ?_, by decide⟩
  · intro l hl
    exact strContains_iff.mp (List.mem_filter.mp hl).2
  · intro l hl
    exact List.count_filter (strContains_iff.mpr hl)

/-- Witness for C2 at the query "A" and the single-line text "xa". -/
theorem search_case_insensitive_returns_lowercase_matches_witness :
    List.count ['x', 'a'] (search_case_insensitive ['A'] ['x', 'a']) =
      List.count ['x', 'a'] (rustLines ['x', 'a']) :=
  (search_case_insensitive_returns_lowercase_matches ['A'] ['x', 'a']).2.2.1
    ['x', 'a'] (by decide)

/-- C3: for every text `t`, both `search` and `search_case_insensitive`
return every line of `t` when the query is empty. -/
theorem empty_query_returns_all_lines (t : Str) :
    search [] t = rustLines t ∧ search_case_insensitive [] t = rustLines t := by
  constructor
  · show (rustLines t).filter (fun line => strContains line []) = rustLines t
    refine List.filter_eq_self.mpr ?_
    intro a _
    exact strContains_iff.mpr List.nil_infix
  · show (rustLines t).filter
        (fun line => strContains (toLowercase line) (toLowercase [])) =
      rustLines t
    refine List.filter_eq_self.mpr ?_
    intro a _
    exact strContains_iff.mpr List.nil_infix

/-- C9 counterexample: with the query "ΑΣ" and the text "ΑΣΑ", `search`
returns the line "ΑΣΑ", but `search_case_insensitive` does not return it:
the query lowercases to a string ending in a final sigma while inside the
line the same capital sigma lowercases to the medial form, so the
lowercased line does not contain the lowercased query. -/
theorem search_result_missing_from_case_insensitive :
    String.toList "ΑΣΑ" ∈ search (String.toList "ΑΣ") (String.toList "ΑΣΑ") ∧
    String.toList "ΑΣΑ" ∉
      search_case_insensitive (String.toList "ΑΣ") (String.toList "ΑΣΑ") := by
  decide

/-- C9 amended: when the capital sigma occurs in neither the query nor
the text, lowercasing is per character, so every line returned by
`search` is also returned by `search_case_insensitive` and the
case-sensitive result is a sublist (hence a subsequence) of the
case-insensitive one; without that restriction the inclusion fails,
because the context-sensitive final-sigma rule of `to_lowercase` can
lower the query and the line inconsistently. -/
theorem search_sublist_of_case_insensitive_without_sigma (q t : Str)
    (hq : 'Σ' ∉ q) (ht : 'Σ' ∉ t) :
    (search q t).Sublist (search_case_insensitive q t) ∧
    ∀ l, l ∈ search q t → l ∈ search_case_insensitive q t := by
  have hmono : (search q t).Sublist (search_case_insensitive q t) := by
    show ((rustLines t).filter (fun line => strContains line q)).Sublist
      ((rustLines t).filter
        (fun line => strContains (toLowercase line) (toLowercase q)))
    apply filter_sublist_filter
    intro a ha hpa
    have hla : 'Σ' ∉ a := fun hm => ht (mem_of_mem_rustLines ha 'Σ' hm)
    refine strContains_iff.mpr ?_
    rw [toLowercase_no_sigma hla, toLowercase_no_sigma hq]
    exact List.IsInfix.map charToLower (strContains_iff.mp hpa)
  exact ⟨hmono, fun l hl => List.Sublist.mem hl hmono⟩

/-- Witness for the amended C9 at the sigma-free query "a" and text
"ab". -/
theorem search_sublist_of_case_insensitive_without_sigma_witness :
    ['a', 'b'] ∈ search_case_insensitive ['a'] ['a', 'b'] :=
  (search_sublist_of_case_insensitive_without_sigma ['a'] ['a', 'b']
    (by decide) (by decide)).2 ['a', 'b'] (by decide)

/-- C4: the line decomposition shared by both search functions keeps a
final segment that has no trailing terminator as a line (verbatim), and a
text ending in a terminator yields exactly one line per terminator, so the
empty segment after the final terminator is not an extra line; in
particular "a\nb" and "a\nb\n" both decompose into ["a", "b"]. -/
theorem rustLines_boundary_behaviour :
    (∀ t u : Str, u ≠ [] → '\n' ∉ u →
      rustLines (t ++ '\n' :: u) = rustLines (t ++ ['\n']) ++ [u]) ∧
    (∀ u : Str, u ≠ [] → '\n' ∉ u → rustLines u = [u]) ∧
    (∀ t : Str, (rustLines (t ++ ['\n'])).length = List.count '\n' t + 1) ∧
    rustLines (String.toList "a\nb") = [['a'], ['b']] ∧
    rustLines (String.toList "a\nb\n") = [['a'], ['b']] := by
  refine ⟨?_, ?_, ?_, by decide, by decide⟩
  · intro t u hne hnl
    unfold rustLines
    rw [splitInclusiveNl_append_nl, List.map_append,
        splitInclusiveNl_of_no_nl u hne hnl]
    simp [linesMap_of_no_trailing_nl (getLast?_ne_of_not_mem hnl)]
  · intro u hne hnl
    unfold rustLines
    rw [splitInclusiveNl_of_no_nl u hne hnl]
    simp [linesMap_of_no_trailing_nl (getLast?_ne_of_not_mem hnl)]
  · intro t
    unfold rustLines
    rw [List.length_map]
    exact splitInclusiveNl_length_concat_nl t

/-- Witness for C4 at the prefix "a" and the final segment "b". -/
theorem rustLines_boundary_behaviour_witness :
    rustLines (['a'] ++ '\n' :: ['b']) =
      rustLines (['a'] ++ ['\n']) ++ [['b']] :=
  rustLines_boundary_behaviour.1 ['a'] ['b'] (by decide) (by decide)

/-- C5: a configuration produced by `Config.new` is case sensitive exactly
when the `CASE_INSENSITIVE` environment variable is unset; whenever it is
set (to any value, the empty string included) the configuration is case
insensitive. -/
theorem case_sensitive_iff_env_unset (args : List Str)
    (caseInsensitiveVar : Option Str) (cfg : Config)
    (h : Config.new args caseInsensitiveVar = .ok cfg) :
    cfg.case_sensitive = true ↔ caseInsensitiveVar = none := by
  unfold Config.new at h
  rcases hargs : args.tail with _ | ⟨q, rest⟩
  · rw [hargs] at h
    simp at h
  · rw [hargs] at h
    rcases rest with _ | ⟨f, more⟩
    · simp at h
    · injection h with h2
      subst h2
      simp [Option.isNone_iff_eq_none]

/-- Witness for C5 at an unset environment variable and the argument list
["p", "q", "f"]. -/
theorem case_sensitive_iff_env_unset_witness :
    (Config.mk ['q'] ['f'] true).case_sensitive = true ↔
      (none : Option Str) = none :=
  case_sensitive_iff_env_unset [['p'], ['q'], ['f']] none
    (Config.mk ['q'] ['f'] true) (by rfl)

/-- C6: with the head of the argument list discarded as the program name,
`Config.new` fails with the missing-query message exactly when no
argument follows the program name, fails with the missing-file-name
message exactly when exactly one argument follows it, and otherwise
succeeds with the query set to the first following argument and the
filename to the second. -/
theorem config_new_argument_handling (p : Str) (rest : List Str)
    (caseInsensitiveVar : Option Str) :
    (Config.new (p :: rest) caseInsensitiveVar = .error missingQueryMsg ↔
      rest = []) ∧
    (Config.new (p :: rest) caseInsensitiveVar = .error missingFileMsg ↔
      rest.length = 1) ∧
    (∀ q f more, rest = q :: f :: more →
      Config.new (p :: rest) caseInsensitiveVar =
        .ok (Config.mk q f caseInsensitiveVar.isNone)) := by
  have hmsg : missingQueryMsg ≠ missingFileMsg := by decide
  rcases rest with _ | ⟨q, rest2⟩
  · refine ⟨by simp [Config.new], by simp [Config.new, hmsg], ?_⟩
    intro q f more h
    cases h
  · rcases rest2 with _ | ⟨f, more2⟩
    · refine ⟨by simp [Config.new, Ne.symm hmsg], by simp [Config.new], ?_⟩
      intro q' f' more' h
      simp at h
    · refine ⟨by simp [Config.new], by simp [Config.new], ?_⟩
      intro q' f' more' h
      rw [h]
      rfl

/-- Witness for C6 at the argument list ["p", "q", "f"]. -/
theorem config_new_argument_handling_witness :
    Config.new [['p'], ['q'], ['f']] (none : Option Str) =
      .ok (Config.mk ['q'] ['f'] (none : Option Str).isNone) :=
  (config_new_argument_handling ['p'] [['q'], ['f']] none).2.2
    ['q'] ['f'] [] (by rfl)

/-- C7: `run` propagates an error from opening the file, or from reading
and decoding it, unchanged to its caller and prints no lines in that case;
when both steps succeed it returns success with no result value. -/
theorem run_propagates_errors {η ε : Type} (fileOpen : Str → Except ε η)
    (readToString : η → Except ε Str) (config : Config) :
    (∀ e, fileOpen config.filename = .error e →
      run fileOpen readToString config = ([], .error e)) ∧
    (∀ f e, fileOpen config.filename = .ok f → readToString f = .error e →
      run fileOpen readToString config = ([], .error e)) ∧
    (∀ f c, fileOpen config.filename = .ok f → readToString f = .ok c →
      (run fileOpen readToString config).2 = .ok ()) := by
  refine ⟨?_, ?_, ?_⟩
  · intro e he
    simp [run, he]
  · intro f e hf he
    simp [run, hf, he]
  · intro f c hf hc
    simp [run, hf, hc]

/-- Witness for C7: a failing open oracle makes `run` return that exact
error alongside an empty output. -/
theorem run_propagates_errors_witness :
    run (fun _ => (Except.error ['e'] : Except Str Unit))
        (fun _ => (Except.ok [] : Except Str Str))
        (Config.mk ['q'] ['f'] true) = ([], .error ['e']) :=
  (run_propagates_errors (fun _ => (Except.error ['e'] : Except Str Unit))
    (fun _ => (Except.ok [] : Except Str Str))
    (Config.mk ['q'] ['f'] true)).1 ['e'] rfl

/-- C8: on successful file input, `run` selects lines with `search` when
the configuration is case sensitive and with `search_case_insensitive`
otherwise, and its printed output is exactly the list the selected search
function returns, in that order, with success as the result value. -/
theorem run_dispatch_and_output {η ε : Type} (fileOpen : Str → Except ε η)
    (readToString : η → Except ε Str) (config : Config) (f : η) (c : Str)
    (hopen : fileOpen config.filename = .ok f)
    (hread : readToString f = .ok c) :
    (config.case_sensitive = true →
      (run fileOpen readToString config).1 = search config.query c) ∧
    (config.case_sensitive = false →
      (run fileOpen readToString config).1 =
        search_case_insensitive config.query c) ∧
    (run fileOpen readToString config).2 = .ok () := by
  refine ⟨fun hcs => ?_, fun hcs => ?_, ?_⟩
  · simp [run, hopen, hread, hcs]
  · simp [run, hopen, hread, hcs]
  · cases hcs : config.case_sensitive <;> simp [run, hopen, hread, hcs]

/-- Witness for C8: a case-sensitive configuration with successful file
input prints exactly the lines `search` returns. -/
theorem run_dispatch_and_output_witness :
    (run (fun _ => (Except.ok () : Except Str Unit))
        (fun _ => (Except.ok ['a'] : Except Str Str))
        (Config.mk ['a'] ['f'] true)).1 = search ['a'] ['a'] :=
  (run_dispatch_and_output (fun _ => (Except.ok () : Except Str Unit))
    (fun _ => (Except.ok ['a'] : Except Str Str))
    (Config.mk ['a'] ['f'] true) () ['a'] rfl rfl).1 rfl

/-- C10 counterexample: on the text "a\r\r\n", only the carriage return
directly before the line feed is stripped, so `search` with the query
"\r" returns the line "a\r", which ends in a carriage return; a returned
line can therefore contain a terminating carriage return and a query
containing "\r" can match. -/
theorem returned_line_with_trailing_cr :
    ['a', '\r'] ∈ search ['\r'] ['a', '\r', '\r', '\n'] ∧
    (['a', '\r'] : Str).getLast? = some '\r' := by
  decide

/-- C10 amended: no line returned by either search function contains a
line feed, and an "\r\n" pair is treated as a single terminator whose
carriage return is stripped from the line before it; however a carriage
return not immediately followed by a line feed (for example one ending the
input) remains in its line, so a query containing such a carriage return
can still match. -/
theorem no_newline_in_returned_lines :
    (∀ q t l, l ∈ search q t → '\n' ∉ l) ∧
    (∀ q t l, l ∈ search_case_insensitive q t → '\n' ∉ l) ∧
    (∀ t u : Str, '\n' ∉ t →
      rustLines (t ++ '\r' :: '\n' :: u) = t :: rustLines u) := by
  refine ⟨?_, ?_, ?_⟩
  · intro q t l hl
    exact nl_not_mem_rustLines (List.Sublist.mem hl (List.filter_sublist _))
  · intro q t l hl
    exact nl_not_mem_rustLines (List.Sublist.mem hl (List.filter_sublist _))
  · intro t u hnl
    have hn : '\n' ∉ t ++ ['\r'] := by
      intro hm
      rcases List.mem_append.mp hm with h | h
      · exact hnl h
      · simp at h
    have h1 : t ++ '\r' :: '\n' :: u = (t ++ ['\r']) ++ '\n' :: u := by simp
    unfold rustLines
    rw [h1, splitInclusiveNl_append_nl, List.map_append,
        splitInclusiveNl_concat_nl (t ++ ['\r']) hn]
    have h2 : (t ++ ['\r']) ++ ['\n'] = t ++ ['\r', '\n'] := by simp
    rw [List.map_singleton, h2, linesMap_concat_rn]
    simp

/-- Witness for the amended C10: the returned line "ab" contains no line
feed. -/
theorem no_newline_in_returned_lines_witness :
    '\n' ∉ (['a', 'b'] : Str) :=
  no_newline_in_returned_lines.1 ['a'] ['a', 'b'] ['a', 'b'] (by decide)

end Minigrep
